import Mathlib

/-!
# Verification of the libcamera photobooth camera adapter

Shallow embedding of the MJPEG frame-extraction pipeline and the small
stateful camera operations of `pibooth_libcamera_pi5/__init__.py`.

Bytes are modelled as `Nat` (a byte stream is a `List Nat`); the JPEG
start-of-image marker is the byte pair `0xFF 0xD8 = 255, 216` and the
end-of-image marker is `0xFF 0xD9 = 255, 217`.
-/

namespace Pibooth

/-- First index at which the two-byte pattern `p, q` occurs in `l`,
or `none`.  This models Python's `bytes.find` for a two-byte needle
(`buffer.find(b'\xff\xd8')` and `buffer.find(b'\xff\xd9')`), with
`none` standing for the sentinel `-1`. -/
def find2 (p q : Nat) : List Nat → Option Nat
  | a :: b :: rest =>
      if a = p ∧ b = q then some 0
      else (find2 p q (b :: rest)).map (· + 1)
  | _ => none

/-- The two-byte pattern `p, q` occurs in `l` at index `i`. -/
def occursAt (p q : Nat) (l : List Nat) (i : Nat) : Prop :=
  ∃ t, l.drop i = p :: q :: t

theorem find2_some_occurs {p q : Nat} {l : List Nat} {i : Nat}
    (h : find2 p q l = some i) : occursAt p q l i := by
  induction l generalizing i with
  | nil => simp [find2] at h
  | cons a t ih =>
    cases t with
    | nil => simp [find2] at h
    | cons b t' =>
      rw [find2] at h
      split at h
      · rename_i hpq
        obtain ⟨rfl, rfl⟩ := hpq
        cases h
        exact ⟨t', rfl⟩
      · rcases Option.map_eq_some'.mp h with ⟨j, hj, rfl⟩
        obtain ⟨u, hu⟩ := ih hj
        exact ⟨u, by simpa using hu⟩

theorem find2_min {p q : Nat} {l : List Nat} {i : Nat}
    (h : find2 p q l = some i) : ∀ j, j < i → ¬ occursAt p q l j := by
  induction l generalizing i with
  | nil => simp [find2] at h
  | cons a t ih =>
    cases t with
    | nil => simp [find2] at h
    | cons b t' =>
      rw [find2] at h
      split at h
      · cases h
        intro j hj
        omega
      · rename_i hpq
        rcases Option.map_eq_some'.mp h with ⟨j0, hj0, rfl⟩
        intro j hj hocc
        cases j with
        | zero =>
          obtain ⟨u, hu⟩ := hocc
          simp at hu
          exact hpq ⟨hu.1, hu.2.1⟩
        | succ j' =>
          obtain ⟨u, hu⟩ := hocc
          exact ih hj0 j' (by omega) ⟨u, by simpa using hu⟩

theorem occursAt_length {p q : Nat} {l : List Nat} {i : Nat}
    (h : occursAt p q l i) : i + 2 ≤ l.length := by
  obtain ⟨t, ht⟩ := h
  have := congrArg List.length ht
  simp [List.length_drop] at this
  omega

theorem find2_none {p q : Nat} {l : List Nat}
    (h : find2 p q l = none) : ∀ j, ¬ occursAt p q l j := by
  induction l with
  | nil =>
    intro j hj
    have := occursAt_length hj
    simp at this
  | cons a t ih =>
    cases t with
    | nil =>
      intro j hj
      have := occursAt_length hj
      simp at this
    | cons b t' =>
      rw [find2] at h
      split at h
      · cases h
      · rename_i hpq
        have ht : find2 p q (b :: t') = none := by
          cases h' : find2 p q (b :: t') with
          | none => rfl
          | some v => rw [h'] at h; simp at h
        intro j hocc
        cases j with
        | zero =>
          obtain ⟨u, hu⟩ := hocc
          simp at hu
          exact hpq ⟨hu.1, hu.2.1⟩
        | succ j' =>
          obtain ⟨u, hu⟩ := hocc
          exact ih ht j' ⟨u, by simpa using hu⟩

theorem find2_some_length {p q : Nat} {l : List Nat} {i : Nat}
    (h : find2 p q l = some i) : i + 2 ≤ l.length :=
  occursAt_length (find2_some_occurs h)

/-- The two searches cannot report the same index when the second
pattern bytes differ. -/
theorem find2_ne_of_snd_ne {p q q' : Nat} {l : List Nat} {i j : Nat}
    (hq : q ≠ q') (h1 : find2 p q l = some i) (h2 : find2 p q' l = some j) :
    i ≠ j := by
  rintro rfl
  obtain ⟨t, ht⟩ := find2_some_occurs h1
  obtain ⟨t', ht'⟩ := find2_some_occurs h2
  rw [ht] at ht'
  exact hq (by injection ht' with _ h; injection h)

/-- The inner `while True` marker-scan loop of `_read_video_stream`:

```
while True:
    a = buffer.find(b'\xff\xd8')
    b = buffer.find(b'\xff\xd9')
    if a != -1 and b != -1:
        if a < b:
            self.latest_frame_bytes = buffer[a:b+2]
            buffer = buffer[b+2:]
        else:
            buffer = buffer[a:]
    else:
        break
```

Returns the list of frames published (assigned to `latest_frame_bytes`),
oldest first, together with the final buffer. -/
def scanBuffer (buf : List Nat) : List (List Nat) × List Nat :=
  match ha : find2 255 216 buf, hb : find2 255 217 buf with
  | some a, some b =>
      if hab : a < b then
        let res := scanBuffer (buf.drop (b + 2))
        (((buf.drop a).take (b + 2 - a)) :: res.1, res.2)
      else
        scanBuffer (buf.drop a)
  | some _, none => ([], buf)
  | none, some _ => ([], buf)
  | none, none => ([], buf)
termination_by buf.length
decreasing_by
  · have hlen := find2_some_length hb
    simp [List.length_drop]
    omega
  · have hlen := find2_some_length ha
    have hne : a ≠ b := find2_ne_of_snd_ne (by omega) ha hb
    simp [List.length_drop]
    omega

/-- Branch equation: if the start marker is absent the loop breaks. -/
theorem scanBuffer_no_start {buf : List Nat}
    (h : find2 255 216 buf = none) : scanBuffer buf = ([], buf) := by
  rw [scanBuffer]
  split <;> simp_all

/-- Branch equation: if the end marker is absent the loop breaks. -/
theorem scanBuffer_no_end {buf : List Nat}
    (h : find2 255 217 buf = none) : scanBuffer buf = ([], buf) := by
  rw [scanBuffer]
  split <;> simp_all

/-- Branch equation: a complete frame `buffer[a:b+2]` is published and the
scan continues on `buffer[b+2:]`. -/
theorem scanBuffer_publish {buf : List Nat} {a b : Nat}
    (ha : find2 255 216 buf = some a) (hb : find2 255 217 buf = some b)
    (hab : a < b) :
    scanBuffer buf =
      (((buf.drop a).take (b + 2 - a)) :: (scanBuffer (buf.drop (b + 2))).1,
        (scanBuffer (buf.drop (b + 2))).2) := by
  rw [scanBuffer]
  split <;> simp_all

/-- Branch equation: with a stray end marker before the start marker, the
prefix before the start marker is discarded and the scan retries. -/
theorem scanBuffer_discard {buf : List Nat} {a b : Nat}
    (ha : find2 255 216 buf = some a) (hb : find2 255 217 buf = some b)
    (hab : ¬ a < b) :
    scanBuffer buf = scanBuffer (buf.drop a) := by
  rw [scanBuffer]
  split <;> simp_all

/-- A well-formed JPEG frame for the purpose of the extractor: at least
4 bytes, the first start marker is at position 0, and the first end
marker is formed by the final two bytes. -/
def wfFrame (f : List Nat) : Prop :=
  4 ≤ f.length ∧ find2 255 216 f = some 0 ∧
    find2 255 217 f = some (f.length - 2)

instance (f : List Nat) : Decidable (wfFrame f) := by
  unfold wfFrame
  infer_instance

theorem find2_cons₂ (p q : Nat) (l : List Nat) :
    find2 p q (p :: q :: l) = some 0 := by
  rw [find2]
  simp

theorem find2_cons_ne {a p : Nat} (q : Nat) (l : List Nat) (h : a ≠ p) :
    find2 p q (a :: l) = (find2 p q l).map (· + 1) := by
  cases l with
  | nil => simp [find2]
  | cons b t =>
    rw [find2]
    split
    · rename_i hc
      exact absurd hc.1 h
    · rfl

theorem find2_cons_pair {a b p q : Nat} (l : List Nat)
    (h : ¬ (a = p ∧ b = q)) :
    find2 p q (a :: b :: l) = (find2 p q (b :: l)).map (· + 1) := by
  rw [find2]
  split
  · rename_i hc
    exact absurd hc h
  · rfl

/-- The first occurrence inside `f` stays the first occurrence after
appending more data on the right. -/
theorem find2_append_of_some {p q : Nat} {f : List Nat} {i : Nat}
    (rest : List Nat) (h : find2 p q f = some i) :
    find2 p q (f ++ rest) = some i := by
  induction f generalizing i with
  | nil => simp [find2] at h
  | cons a t ih =>
    cases t with
    | nil => simp [find2] at h
    | cons b t' =>
      rw [find2] at h
      rw [List.cons_append, List.cons_append, find2]
      split at h
      · rename_i hc
        cases h
        simp [hc]
      · rename_i hc
        rcases Option.map_eq_some'.mp h with ⟨j, hj, rfl⟩
        rw [if_neg hc]
        have := ih hj
        rw [List.cons_append] at this
        rw [this]
        rfl

theorem occursAt_mono {p q : Nat} {l g : List Nat} {i : Nat}
    (hpre : l <+: g) (h : occursAt p q l i) : occursAt p q g i := by
  obtain ⟨t, ht⟩ := h
  obtain ⟨r, rfl⟩ := hpre
  exact ⟨t ++ r, by rw [List.drop_append_of_le_length
    (by have := occursAt_length ⟨t, ht⟩; omega), ht]; rfl⟩

/-- On a strict prefix of a well-formed frame, the scan finds no end
marker and therefore stops, keeping the whole buffer. -/
theorem scanBuffer_partial_frame {g P : List Nat} (hwf : wfFrame g)
    (hpre : P <+: g) (hlt : P.length < g.length) :
    scanBuffer P = ([], P) := by
  obtain ⟨hlen, hsoi, heoi⟩ := hwf
  apply scanBuffer_no_end
  cases h : find2 255 217 P with
  | none => rfl
  | some i =>
    exfalso
    have hocc := find2_some_occurs h
    have hiP := occursAt_length hocc
    have hoccg := occursAt_mono hpre hocc
    rcases Nat.lt_or_ge i (g.length - 2) with hlt' | hge
    · exact find2_min heoi i hlt' hoccg
    · omega

/-- Scanning a buffer that begins with a complete well-formed frame
publishes exactly that frame and continues on the remainder. -/
theorem scanBuffer_frame_cons {g : List Nat} (X : List Nat)
    (hwf : wfFrame g) :
    scanBuffer (g ++ X) =
      (g :: (scanBuffer X).1, (scanBuffer X).2) := by
  obtain ⟨hlen, hsoi, heoi⟩ := hwf
  have ha : find2 255 216 (g ++ X) = some 0 := find2_append_of_some X hsoi
  have hb : find2 255 217 (g ++ X) = some (g.length - 2) :=
    find2_append_of_some X heoi
  have hab : 0 < g.length - 2 := by omega
  rw [scanBuffer_publish ha hb hab]
  have h2 : g.length - 2 + 2 - 0 = g.length := by omega
  have h3 : g.length - 2 + 2 = g.length := by omega
  rw [h2, h3, List.drop_zero, List.take_left, List.drop_left]

/-- Scanning any prefix `P` of a concatenation of well-formed frames
publishes exactly the frames wholly contained in `P`, in order, and
retains a strict prefix of the next frame as the buffer. -/
theorem scanBuffer_stream_split (fs : List (List Nat)) :
    ∀ P : List Nat, (∀ f ∈ fs, wfFrame f) → P <+: fs.flatten →
      ∃ fs₁ fs₂ r, fs = fs₁ ++ fs₂ ∧ scanBuffer P = (fs₁, r) ∧
        P = fs₁.flatten ++ r ∧
        ((fs₂ = [] ∧ r = []) ∨
          ∃ g t, fs₂ = g :: t ∧ r <+: g ∧ r.length < g.length) := by
  induction fs with
  | nil =>
    intro P _ hpre
    have hP : P = [] := by simpa using List.prefix_nil.mp (by simpa using hpre)
    subst hP
    refine ⟨[], [], [], rfl, scanBuffer_no_end rfl, rfl, Or.inl ⟨rfl, rfl⟩⟩
  | cons g t ih =>
    intro P hwf hpre
    have hg : wfFrame g := hwf g (by simp)
    have hgpre : g <+: (g :: t).flatten := by
      rw [List.flatten_cons]
      exact ⟨t.flatten, rfl⟩
    rcases Nat.lt_or_ge P.length g.length with hP | hP
    · have hPg : P <+: g :=
        List.prefix_of_prefix_length_le hpre hgpre (by omega)
      refine ⟨[], g :: t, P, rfl, scanBuffer_partial_frame hg hPg hP, rfl,
        Or.inr ⟨g, t, rfl, hPg, hP⟩⟩
    · have hgP : g <+: P :=
        List.prefix_of_prefix_length_le hgpre hpre (by omega)
      obtain ⟨P', rfl⟩ := hgP
      have hP' : P' <+: t.flatten := by
        rw [List.flatten_cons] at hpre
        exact (List.prefix_append_right_inj g).mp hpre
      obtain ⟨fs₁, fs₂, r, hsplit, hscan, hdecomp, hinv⟩ :=
        ih P' (fun f hf => hwf f (by simp [hf])) hP'
      refine ⟨g :: fs₁, fs₂, r, by simp [hsplit], ?_, ?_, hinv⟩
      · rw [scanBuffer_frame_cons P' hg, hscan]
      · rw [List.flatten_cons, hdecomp, List.append_assoc]

/-- State of the frame extractor thread: the accumulating raw byte
buffer, the trace of frames published to `latest_frame_bytes` (oldest
first), and the current value of `latest_frame_bytes`. -/
structure ExtractorState where
  buffer : List Nat
  frames : List (List Nat)
  latest : Option (List Nat)
deriving DecidableEq, Repr

/-- The initial extractor state: `buffer = b""`,
`latest_frame_bytes = None`, no frame published yet. -/
def initExtractorState : ExtractorState := ⟨[], [], none⟩

/-- One iteration of the outer read loop of `_read_video_stream`:
append the chunk just read, run the inner marker-scan loop to
completion, then apply the desync-recovery cap
`if len(buffer) > 500000: buffer = b""`. -/
def processChunk (st : ExtractorState) (chunk : List Nat) : ExtractorState :=
  let buf := st.buffer ++ chunk
  let res := scanBuffer buf
  let buffer' := if res.2.length > 500000 then [] else res.2
  { buffer := buffer'
    frames := st.frames ++ res.1
    latest := res.1.getLast?.or st.latest }

/-- The read loop of `_read_video_stream`, processing a list of chunks
as delivered by `stdout.read(32768)` while `running` holds. -/
def read_video_stream (st : ExtractorState) (chunks : List (List Nat)) :
    ExtractorState :=
  chunks.foldl processChunk st

/-- Chunk-level loop invariant: starting from a buffer that is a strict
prefix of the next expected frame, processing chunks that complete the
remaining frames publishes exactly those frames. -/
theorem read_video_stream_good (cs : List (List Nat)) :
    ∀ (fs₂ : List (List Nat)) (st : ExtractorState),
      (∀ f ∈ fs₂, wfFrame f ∧ f.length ≤ 500001) →
      ((fs₂ = [] ∧ st.buffer = []) ∨
        ∃ g t, fs₂ = g :: t ∧ st.buffer <+: g ∧ st.buffer.length < g.length) →
      st.buffer ++ cs.flatten = fs₂.flatten →
      (read_video_stream st cs).frames = st.frames ++ fs₂ ∧
        (read_video_stream st cs).buffer = [] := by
  induction cs with
  | nil =>
    intro fs₂ st hwf hinv heq
    simp only [List.flatten_nil, List.append_nil] at heq
    rcases hinv with ⟨hfs, hbuf⟩ | ⟨g, t, rfl, _, hlt⟩
    · subst hfs
      simpa [read_video_stream] using hbuf
    · exfalso
      rw [List.flatten_cons] at heq
      have := congrArg List.length heq
      simp [List.length_append] at this
      omega
  | cons c cs' ih =>
    intro fs₂ st hwf hinv heq
    have hpre : (st.buffer ++ c) <+: fs₂.flatten := by
      refine ⟨cs'.flatten, ?_⟩
      rw [← heq, List.flatten_cons]
      simp [List.append_assoc]
    obtain ⟨fsA, fsB, r, hsplit, hscan, hdecomp, hinv'⟩ :=
      scanBuffer_stream_split fs₂ (st.buffer ++ c)
        (fun f hf => (hwf f hf).1) hpre
    have hrlen : ¬ r.length > 500000 := by
      rcases hinv' with ⟨_, rfl⟩ | ⟨g, t, hfsB, _, hlt⟩
      · simp
      · have hg : g ∈ fs₂ := by
          rw [hsplit, hfsB]
          simp
        have := (hwf g hg).2
        omega
    have hstep : processChunk st c =
        { buffer := r, frames := st.frames ++ fsA,
          latest := fsA.getLast?.or st.latest } := by
      simp [processChunk, hscan, hrlen]
    have heq' : r ++ cs'.flatten = fsB.flatten := by
      have h1 : fsA.flatten ++ (r ++ cs'.flatten) =
          fsA.flatten ++ fsB.flatten := by
        rw [← List.append_assoc, ← hdecomp, ← List.flatten_append, ← hsplit,
          ← heq, List.flatten_cons]
        simp [List.append_assoc]
      exact List.append_cancel_left h1
    have hwfB : ∀ f ∈ fsB, wfFrame f ∧ f.length ≤ 500001 := by
      intro f hf
      refine hwf f ?_
      rw [hsplit]
      simp [hf]
    have := ih fsB (processChunk st c) hwfB
      (by rw [hstep]
          rcases hinv' with ⟨hB, hr⟩ | ⟨g, t, hB, hpr, hlt⟩
          · exact Or.inl ⟨hB, hr⟩
          · exact Or.inr ⟨g, t, hB, hpr, hlt⟩)
      (by rw [hstep]; exact heq')
    rw [read_video_stream, List.foldl_cons] at *
    refine ⟨?_, this.2⟩
    rw [show (cs'.foldl processChunk (processChunk st c)) =
        read_video_stream (processChunk st c) cs' from rfl] at *
    rw [this.1, hstep, hsplit]
    simp [List.append_assoc]

theorem find2_replicate_append (p q n : Nat) (l : List Nat) (hp : p ≠ 0) :
    find2 p q (List.replicate n 0 ++ l) = (find2 p q l).map (· + n) := by
  induction n with
  | zero =>
    simp only [List.replicate_zero, List.nil_append]
    cases find2 p q l <;> simp
  | succ n ih =>
    rw [List.replicate_succ, List.cons_append, find2_cons_ne q _ (Ne.symm hp),
      ih]
    cases find2 p q l with
    | none => rfl
    | some x => simp; omega

/-- A single well-formed 500,004-byte frame, exhibiting loss through the
500,000-byte buffer cap. -/
def bigFrame : List Nat :=
  255 :: 216 :: (List.replicate 500000 0 ++ [255, 217])

/-- The first 500,001 bytes of `bigFrame`. -/
def bigChunk1 : List Nat := 255 :: 216 :: List.replicate 499999 0

/-- The last 3 bytes of `bigFrame`. -/
def bigChunk2 : List Nat := [0, 255, 217]

theorem bigChunks_eq : bigChunk1 ++ bigChunk2 = bigFrame := by
  have h : List.replicate 500000 (0 : Nat) = List.replicate 499999 0 ++ [0] := by
    have h' : (500000 : Nat) = 499999 + 1 := by norm_num
    rw [h', List.replicate_succ']
  rw [bigChunk1, bigChunk2, bigFrame, h, List.cons_append, List.cons_append,
    List.append_assoc, List.singleton_append]

theorem bigFrame_length : bigFrame.length = 500004 := by
  rw [bigFrame, List.length_cons, List.length_cons, List.length_append,
    List.length_replicate]
  norm_num

theorem bigFrame_wf : wfFrame bigFrame := by
  refine ⟨by rw [bigFrame_length]; omega, find2_cons₂ 255 216 _, ?_⟩
  rw [bigFrame_length, bigFrame]
  rw [find2_cons_pair _ (by omega), find2_cons_ne _ _ (by omega),
    find2_replicate_append 255 217 500000 [255, 217] (by omega)]
  rw [show find2 255 217 [255, 217] = some 0 from find2_cons₂ 255 217 []]
  rfl

theorem scan_bigChunk1 : scanBuffer bigChunk1 = ([], bigChunk1) := by
  apply scanBuffer_no_end
  rw [bigChunk1, find2_cons_pair _ (by omega), find2_cons_ne _ _ (by omega)]
  have h : List.replicate 499999 (0 : Nat) =
      List.replicate 499999 0 ++ [] := (List.append_nil _).symm
  rw [h, find2_replicate_append 255 217 499999 [] (by omega)]
  rfl

theorem scan_bigChunk2 : scanBuffer bigChunk2 = ([], bigChunk2) := by
  apply scanBuffer_no_start
  rw [bigChunk2, find2_cons_ne _ _ (by omega), find2_cons_pair _ (by omega)]
  rfl

theorem bigChunk1_length : bigChunk1.length = 500001 := by
  rw [bigChunk1, List.length_cons, List.length_cons, List.length_replicate]

theorem processChunk_init_bigChunk1 :
    processChunk initExtractorState bigChunk1 = initExtractorState := by
  simp [processChunk, initExtractorState, scan_bigChunk1, bigChunk1_length]

theorem read_video_stream_big :
    (read_video_stream initExtractorState [bigChunk1, bigChunk2]).frames
      = [] := by
  rw [read_video_stream, List.foldl_cons, processChunk_init_bigChunk1,
    List.foldl_cons, List.foldl_nil]
  have h3 : bigChunk2.length = 3 := rfl
  simp [processChunk, initExtractorState, scan_bigChunk2, h3]

/-- **C1** (amended: every frame at most 500,001 bytes): for every byte
stream that is a concatenation of well-formed JPEG frames, delivered
split across arbitrary chunk boundaries, the extraction loop publishes
exactly those frames as `latest_frame_bytes`, in stream order, each
byte-identical to the original. -/
theorem extractor_publishes_all_bounded_frames
    (fs cs : List (List Nat))
    (hwf : ∀ f ∈ fs, wfFrame f) (hlen : ∀ f ∈ fs, f.length ≤ 500001)
    (hsplit : cs.flatten = fs.flatten) :
    (read_video_stream initExtractorState cs).frames = fs := by
  have h := read_video_stream_good cs fs initExtractorState
    (fun f hf => ⟨hwf f hf, hlen f hf⟩)
    (by
      cases fs with
      | nil => exact Or.inl ⟨rfl, rfl⟩
      | cons g t =>
        refine Or.inr ⟨g, t, rfl, List.nil_prefix, ?_⟩
        have := (hwf g (by simp)).1
        simp [initExtractorState]
        omega)
    (by simp [initExtractorState, hsplit])
  simpa [initExtractorState] using h.1

/-- **C1, witness**: a two-chunk split of a single 5-byte frame is
reassembled and published. -/
theorem extractor_publishes_all_bounded_frames_witness :
    (read_video_stream initExtractorState
      [[255, 216], [0, 255, 217]]).frames = [[255, 216, 0, 255, 217]] :=
  extractor_publishes_all_bounded_frames [[255, 216, 0, 255, 217]]
    [[255, 216], [0, 255, 217]] (by decide) (by decide) (by decide)

/-- **C1, counterexample to the unrestricted claim**: a single
well-formed 500,004-byte frame (N = 1), split into a 500,001-byte chunk
followed by a 3-byte chunk, is never published: after the first chunk the
residual buffer exceeds 500,000 bytes and is wiped, so the extraction
loop publishes 0 frames instead of exactly 1. -/
theorem extractor_drops_oversized_frame :
    wfFrame bigFrame ∧ bigChunk1 ++ bigChunk2 = bigFrame ∧
    (read_video_stream initExtractorState [bigChunk1, bigChunk2]).frames
      = [] ∧
    (read_video_stream initExtractorState [bigChunk1, bigChunk2]).frames
      ≠ [bigFrame] := by
  refine ⟨bigFrame_wf, bigChunks_eq, read_video_stream_big, ?_⟩
  rw [read_video_stream_big]
  simp

/-- The outcome of one iteration of the inner marker-scan loop. -/
inductive ScanStep where
  /-- both markers found with `a < b`: publish `buffer[a:b+2]`, keep
  `buffer[b+2:]` -/
  | publish (frame rest : List Nat)
  /-- both markers found with `b ≤ a`: keep `buffer[a:]`, publish nothing -/
  | discard (rest : List Nat)
  /-- a marker is missing: break out of the loop -/
  | stop
deriving DecidableEq, Repr

/-- One iteration of the inner scan loop of `_read_video_stream`
(the body of `while True:`). -/
def scanStep (buf : List Nat) : ScanStep :=
  match find2 255 216 buf, find2 255 217 buf with
  | some a, some b =>
      if a < b then
        ScanStep.publish ((buf.drop a).take (b + 2 - a)) (buf.drop (b + 2))
      else
        ScanStep.discard (buf.drop a)
  | _, _ => ScanStep.stop

/-- Converse characterisation: the first occurrence determines `find2`. -/
theorem find2_eq_some_of {p q : Nat} {l : List Nat} {i : Nat}
    (hocc : occursAt p q l i) (hmin : ∀ j, j < i → ¬ occursAt p q l j) :
    find2 p q l = some i := by
  induction l generalizing i with
  | nil =>
    have := occursAt_length hocc
    simp at this
  | cons a t ih =>
    cases i with
    | zero =>
      obtain ⟨u, hu⟩ := hocc
      simp only [List.drop_zero] at hu
      injection hu with h1 h2
      rw [h1, h2]
      exact find2_cons₂ p q u
    | succ i' =>
      obtain ⟨u, hu⟩ := hocc
      simp only [List.drop_succ_cons] at hu
      have htocc : occursAt p q t i' := ⟨u, hu⟩
      have htmin : ∀ j, j < i' → ¬ occursAt p q t j := by
        intro j hj ⟨v, hv⟩
        exact hmin (j + 1) (by omega) ⟨v, by simpa using hv⟩
      have hrec := ih htocc htmin
      cases t with
      | nil => simp [find2] at hrec
      | cons b t'' =>
        rw [find2]
        split
        · rename_i hc
          exact absurd ⟨t'', by rw [List.drop_zero, hc.1, hc.2]⟩
            (hmin 0 (by omega))
        · rw [hrec]
          rfl

theorem occursAt_drop {p q n : Nat} {l : List Nat} {i : Nat}
    (h : occursAt p q (l.drop n) i) : occursAt p q l (n + i) := by
  obtain ⟨t, ht⟩ := h
  rw [List.drop_drop] at ht
  exact ⟨t, ht⟩

/-- Shape of the frame slice `buffer[a:b+2]` published when the first
start marker at `a` precedes the first end marker at `b`. -/
theorem publish_frame_shape {buf : List Nat} {a b : Nat}
    (ha : find2 255 216 buf = some a) (hb : find2 255 217 buf = some b)
    (hab : a < b) :
    ((buf.drop a).take (b + 2 - a)).length = b + 2 - a ∧
    4 ≤ ((buf.drop a).take (b + 2 - a)).length ∧
    (∃ t, (buf.drop a).take (b + 2 - a) = 255 :: 216 :: t) ∧
    (∃ s, (buf.drop a).take (b + 2 - a) = s ++ [255, 217]) ∧
    find2 255 217 ((buf.drop a).take (b + 2 - a)) = some (b - a) := by
  obtain ⟨t0, ht0⟩ := find2_some_occurs ha
  obtain ⟨t1, ht1⟩ := find2_some_occurs hb
  have hblen : b + 2 ≤ buf.length := find2_some_length hb
  have halen : a + 2 ≤ buf.length := find2_some_length ha
  have hab2 : a + 2 ≤ b := by
    rcases Nat.lt_or_ge (a + 1) b with h | h
    · omega
    · have hba1 : b = a + 1 := by omega
      exfalso
      have h1 : buf.drop (a + 1) = 216 :: t0 := by
        have := List.drop_drop 1 a buf
        rw [ht0] at this
        simpa using this.symm
      rw [hba1, h1] at ht1
      injection ht1 with h2 _
      omega
  set f := (buf.drop a).take (b + 2 - a) with hf
  have hdlen : (buf.drop a).length = buf.length - a := List.length_drop a buf
  have hflen : f.length = b + 2 - a := by
    rw [hf, List.length_take]
    omega
  have hm : b + 2 - a = (b - a - 2) + 2 + 2 := by omega
  have hhead : ∃ t, f = 255 :: 216 :: t := by
    refine ⟨t0.take (b - a), ?_⟩
    rw [hf, ht0]
    rw [show b + 2 - a = (b - a) + 2 from by omega]
    rw [List.take_succ_cons, List.take_succ_cons]
  have htail : f = (buf.drop a).take (b - a) ++ [255, 217] := by
    rw [hf, show b + 2 - a = (b - a) + 2 from by omega, List.take_add]
    congr 1
    have hdd : (buf.drop a).drop (b - a) = buf.drop b := by
      rw [List.drop_drop]
      congr 1
      omega
    rw [hdd, ht1]
    rfl
  have hslen : ((buf.drop a).take (b - a)).length = b - a := by
    rw [List.length_take]
    omega
  have hocc : occursAt 255 217 f (b - a) := by
    refine ⟨[], ?_⟩
    rw [htail]
    have hdl := List.drop_left (List.take (b - a) (List.drop a buf)) [255, 217]
    rw [hslen] at hdl
    exact hdl
  have hmin : ∀ j, j < b - a → ¬ occursAt 255 217 f j := by
    intro j hj hoccj
    have h1 : occursAt 255 217 (buf.drop a) j :=
      occursAt_mono (List.take_prefix _ _) hoccj
    have h2 : occursAt 255 217 buf (a + j) := occursAt_drop h1
    exact find2_min hb (a + j) (by omega) h2
  refine ⟨hflen, by omega, hhead, ⟨_, htail⟩, ?_⟩
  exact find2_eq_some_of hocc hmin

/-- Every frame in the publish trace of the inner scan loop begins with
the start marker, ends with the end marker, and contains no earlier end
marker. -/
theorem scanBuffer_frames_wf :
    ∀ n (buf : List Nat), buf.length ≤ n → ∀ f ∈ (scanBuffer buf).1,
      4 ≤ f.length ∧ (∃ t, f = 255 :: 216 :: t) ∧
      (∃ s, f = s ++ [255, 217]) ∧
      find2 255 217 f = some (f.length - 2) := by
  intro n
  induction n with
  | zero =>
    intro buf hlen f hf
    have hbuf : buf = [] := List.length_eq_zero.mp (by omega)
    subst hbuf
    rw [@scanBuffer_no_end [] rfl] at hf
    simp at hf
  | succ n ih =>
    intro buf hlen f hf
    cases ha : find2 255 216 buf with
    | none =>
      rw [scanBuffer_no_start ha] at hf
      simp at hf
    | some a =>
      cases hb : find2 255 217 buf with
      | none =>
        rw [scanBuffer_no_end hb] at hf
        simp at hf
      | some b =>
        by_cases hab : a < b
        · rw [scanBuffer_publish ha hb hab] at hf
          have hblen := find2_some_length hb
          rcases List.mem_cons.mp hf with rfl | hf'
          · obtain ⟨hl, h4, hh, ht, hfd⟩ := publish_frame_shape ha hb hab
            refine ⟨h4, hh, ht, ?_⟩
            rw [hfd, hl]
            congr 1
            omega
          · exact ih (buf.drop (b + 2))
              (by rw [List.length_drop]; omega) f hf'
        · rw [scanBuffer_discard ha hb hab] at hf
          have hne : a ≠ b := find2_ne_of_snd_ne (by omega) ha hb
          have hblen := find2_some_length hb
          exact ih (buf.drop a) (by rw [List.length_drop]; omega) f hf

theorem mem_frames_read_video_stream :
    ∀ (cs : List (List Nat)) (st : ExtractorState) (f : List Nat),
      f ∈ (read_video_stream st cs).frames →
      f ∈ st.frames ∨ ∃ buf, f ∈ (scanBuffer buf).1 := by
  intro cs
  induction cs with
  | nil =>
    intro st f hf
    exact Or.inl hf
  | cons c cs' ih =>
    intro st f hf
    rw [read_video_stream, List.foldl_cons] at hf
    rcases ih (processChunk st c) f hf with h | h
    · simp only [processChunk, List.mem_append] at h
      rcases h with h | h
      · exact Or.inl h
      · exact Or.inr ⟨st.buffer ++ c, h⟩
    · exact Or.inr h

theorem scanBuffer_small :
    scanBuffer [255, 216, 0, 255, 217] = ([[255, 216, 0, 255, 217]], []) := by
  have ha : find2 255 216 [255, 216, 0, 255, 217] = some 0 := by decide
  have hb : find2 255 217 [255, 216, 0, 255, 217] = some 3 := by decide
  rw [scanBuffer_publish ha hb (by omega)]
  rw [show List.drop (3 + 2) [255, 216, 0, 255, 217] = ([] : List Nat)
    from rfl]
  rw [@scanBuffer_no_end [] rfl]
  rfl

theorem read_video_stream_single :
    (read_video_stream initExtractorState
      [[255, 216, 0, 255, 217]]).frames = [[255, 216, 0, 255, 217]] := by
  rw [read_video_stream, List.foldl_cons, List.foldl_nil]
  simp [processChunk, initExtractorState, scanBuffer_small]

/-- **C2**: when the first end marker strictly precedes the first start
marker, one iteration of the scan loop discards every byte before the
start marker, publishes nothing, and the whole scan continues on the
retained suffix. -/
theorem scan_discards_stray_suffix (buf : List Nat) (a b : Nat)
    (ha : find2 255 216 buf = some a) (hb : find2 255 217 buf = some b)
    (hba : b < a) :
    scanStep buf = ScanStep.discard (buf.drop a) ∧
    scanBuffer buf = scanBuffer (buf.drop a) := by
  constructor
  · simp only [scanStep, ha, hb]
    rw [if_neg (by omega)]
  · exact scanBuffer_discard ha hb (by omega)

/-- **C2, witness**. -/
theorem scan_discards_stray_suffix_witness :
    find2 255 216 [255, 217, 255, 216] = some 2 ∧
    find2 255 217 [255, 217, 255, 216] = some 0 ∧
    scanStep [255, 217, 255, 216] = ScanStep.discard [255, 216] ∧
    scanBuffer [255, 217, 255, 216] = scanBuffer [255, 216] := by
  have h := scan_discards_stray_suffix [255, 217, 255, 216] 2 0
    (by decide) (by decide) (by decide)
  exact ⟨by decide, by decide, h.1, h.2⟩

/-- **C9**: each iteration of the inner scan loop either exits or
strictly shrinks the buffer — by at least 2 bytes on a publish, and at
least 1 byte on a stray-prefix discard — so the loop terminates on every
finite buffer. -/
theorem scan_loop_decreases (buf : List Nat) :
    scanStep buf = ScanStep.stop ∨
    (∃ f r, scanStep buf = ScanStep.publish f r ∧
      r.length + 2 ≤ buf.length) ∨
    (∃ r, scanStep buf = ScanStep.discard r ∧
      r.length + 1 ≤ buf.length) := by
  cases ha : find2 255 216 buf with
  | none =>
    left
    cases hb : find2 255 217 buf with
    | none => simp [scanStep, ha, hb]
    | some b => simp [scanStep, ha, hb]
  | some a =>
    cases hb : find2 255 217 buf with
    | none =>
      left
      simp [scanStep, ha, hb]
    | some b =>
      have hblen := find2_some_length hb
      have halen := find2_some_length ha
      by_cases hab : a < b
      · right; left
        refine ⟨(buf.drop a).take (b + 2 - a), buf.drop (b + 2), ?_, ?_⟩
        · simp only [scanStep, ha, hb]
          rw [if_pos hab]
        · rw [List.length_drop]
          omega
      · right; right
        have hne : a ≠ b := find2_ne_of_snd_ne (by omega) ha hb
        refine ⟨buf.drop a, ?_, ?_⟩
        · simp only [scanStep, ha, hb]
          rw [if_neg hab]
        · rw [List.length_drop]
          omega

/-- **C10**: every value ever assigned to `latest_frame_bytes` by the
extractor is at least 4 bytes, begins with the start marker `FF D8`,
ends with the end marker `FF D9`, and contains no end marker before its
final two bytes (its first end marker is at position `length - 2`). -/
theorem published_frames_well_framed (cs : List (List Nat)) (f : List Nat)
    (hf : f ∈ (read_video_stream initExtractorState cs).frames) :
    4 ≤ f.length ∧ (∃ t, f = 255 :: 216 :: t) ∧
    (∃ s, f = s ++ [255, 217]) ∧
    find2 255 217 f = some (f.length - 2) := by
  rcases mem_frames_read_video_stream cs initExtractorState f hf with h | ⟨buf, h⟩
  · simp [initExtractorState] at h
  · exact scanBuffer_frames_wf buf.length buf le_rfl f h

/-- **C10, witness**. -/
theorem published_frames_well_framed_witness :
    4 ≤ ([255, 216, 0, 255, 217] : List Nat).length ∧
    (∃ t, ([255, 216, 0, 255, 217] : List Nat) = 255 :: 216 :: t) ∧
    (∃ s, ([255, 216, 0, 255, 217] : List Nat) = s ++ [255, 217]) ∧
    find2 255 217 [255, 216, 0, 255, 217] =
      some (([255, 216, 0, 255, 217] : List Nat).length - 2) := by
  have hf : ([255, 216, 0, 255, 217] : List Nat) ∈
      (read_video_stream initExtractorState
        [[255, 216, 0, 255, 217]]).frames := by
    rw [read_video_stream_single]
    exact List.mem_singleton.mpr rfl
  exact published_frames_well_framed [[255, 216, 0, 255, 217]] _ hf

theorem find2_replicate_none (p q n : Nat) (hp : p ≠ 0) :
    find2 p q (List.replicate n 0) = none := by
  have h := find2_replicate_append p q n [] hp
  rw [List.append_nil] at h
  rw [h]
  rfl

/-- **C3**: after processing any chunk the residual raw byte buffer holds
at most 500,000 bytes; whenever the post-scan residue exceeds 500,000
bytes the whole buffer is discarded (set to empty). -/
theorem buffer_capped (st : ExtractorState) (c : List Nat) :
    (processChunk st c).buffer.length ≤ 500000 ∧
    (500000 < (scanBuffer (st.buffer ++ c)).2.length →
      (processChunk st c).buffer = []) := by
  by_cases h : (scanBuffer (st.buffer ++ c)).2.length > 500000
  · simp [processChunk, h]
  · simp [processChunk, h]
    omega

/-- **C3, witness**: a 500,001-byte markerless buffer is wiped. -/
theorem buffer_capped_witness :
    (processChunk ⟨List.replicate 500001 0, [], none⟩ []).buffer.length
        ≤ 500000 ∧
    (processChunk ⟨List.replicate 500001 0, [], none⟩ []).buffer = [] := by
  have hover : 500000 <
      (scanBuffer ((⟨List.replicate 500001 0, [], none⟩ :
        ExtractorState).buffer ++ [])).2.length := by
    show 500000 < (scanBuffer (List.replicate 500001 0 ++ [])).2.length
    rw [List.append_nil,
      scanBuffer_no_start (find2_replicate_none 255 216 500001 (by omega))]
    rw [show (([], List.replicate 500001 (0 : Nat)) :
      List (List Nat) × List Nat).2 = List.replicate 500001 0 from rfl]
    rw [List.length_replicate]
    omega
  exact ⟨(buffer_capped ⟨List.replicate 500001 0, [], none⟩ []).1,
    (buffer_capped ⟨List.replicate 500001 0, [], none⟩ []).2 hover⟩

/-- An entry of the append-only capture buffer `self._captures`:
either the bytes read back from the still-capture output file, or the
JPEG encoding of `Image.new('RGB', self.resolution, (0, 0, 0))`
appended on any capture failure. -/
inductive CaptureEntry where
  | fileData (bytes : List Nat)
  | placeholder (w h : Nat)
deriving DecidableEq, Repr

/-- The mutable fields of `LibcameraRpiCamera` touched by the public
operations.  `preview_process` and `window` model
`self._preview_process is not None` and `self._window is not None`. -/
structure CamState where
  running : Bool
  preview_process : Bool
  latest_frame_bytes : Option (List Nat)
  overlay_text : Option String
  preview_flip : Bool
  window : Bool
  preview_width : Nat
  preview_height : Nat
  resolution : Nat × Nat
  captures : List CaptureEntry
deriving DecidableEq, Repr

/-- `_stop_preview_process`: set `running = False`; if a process handle
is held, terminate it best-effort (graceful `terminate`/`wait`, then
`SIGKILL`, every error swallowed) and set the handle to `None`.  The
external termination side effects leave the adapter state untouched. -/
def stop_preview_process (st : CamState) : CamState :=
  let st1 : CamState := { st with running := false }
  if st1.preview_process then { st1 with preview_process := false } else st1

/-- `_start_preview_process`: no-op when already running; otherwise set
`running = True` and start the reader thread. -/
def start_preview_process (st : CamState) : CamState :=
  if st.running then st else { st with running := true }

/-- `stop_preview`: clear the overlay text, stop the preview process,
drop the window reference. -/
def stop_preview (st : CamState) : CamState :=
  let st1 : CamState := { st with overlay_text := none }
  let st2 := stop_preview_process st1
  { st2 with window := false }

/-- `quit` (also the `__del__` teardown path). -/
def quit (st : CamState) : CamState :=
  stop_preview_process st

/-- `preview(window, flip)`: store the window and flip configuration,
ensure the preview process is started, render once (a read-only call). -/
def preview (st : CamState) (flip : Bool) : CamState :=
  let st1 : CamState := { st with window := true, preview_flip := flip }
  start_preview_process st1

/-- `preview_countdown(timeout)`: the polling loop mutates only
`_overlay_text` (the countdown digits), and after the timeout sets it to
the localized smile prompt (`smile` abstracts
`get_translated_text('smile')`); every other field is only read. -/
def preview_countdown (st : CamState) (smile : String) : CamState :=
  { st with overlay_text := some smile }

/-- `preview_wait(timeout)`: renders in a polling loop; mutates no
field. -/
def preview_wait (st : CamState) : CamState :=
  st

/-- `capture(effect=None)`: stop the preview process, settle, run the
external still capture and read its output file back.  `outcome` is
`some bytes` when every external step succeeds and `none` on any failure
(executable missing, nonzero exit, unreadable file); the `except` branch
appends a solid-colour placeholder of the configured resolution instead.
Finally clear the overlay text. -/
def capture (st : CamState) (outcome : Option (List Nat)) : CamState :=
  let st1 := stop_preview_process st
  let st2 :=
    match outcome with
    | some data =>
        { st1 with captures := st1.captures ++ [CaptureEntry.fileData data] }
    | none =>
        { st1 with captures := st1.captures ++
            [CaptureEntry.placeholder st1.resolution.1 st1.resolution.2] }
  { st2 with overlay_text := none }

theorem stop_preview_process_eq (st : CamState) :
    stop_preview_process st =
      { st with running := false, preview_process := false } := by
  rw [stop_preview_process]
  split
  · rfl
  · rename_i h
    simp only [Bool.not_eq_true] at h
    cases st
    simp_all

/-- **C7**: from every state — initial, after a completed stop, or with
a live process handle — stopping returns normally (totality by
construction), sets the running flag to false, releases the process
handle, and performing it twice yields the same state as once; the same
holds through `stop_preview` and `quit`, and for `stop_preview` followed
by `quit`. -/
theorem stop_safe_idempotent (st : CamState) :
    (stop_preview_process st).running = false ∧
    (stop_preview_process st).preview_process = false ∧
    stop_preview_process (stop_preview_process st) =
      stop_preview_process st ∧
    quit (quit st) = quit st ∧
    stop_preview (stop_preview st) = stop_preview st ∧
    (quit (stop_preview st)).running = false ∧
    (quit (stop_preview st)).preview_process = false := by
  cases st
  simp [stop_preview_process_eq, quit, stop_preview]

/-- **C5**: one call to `capture` always returns (totality by
construction) and leaves the capture buffer with exactly one new
appended entry — the file contents on success, a solid-colour
placeholder of the configured resolution otherwise — with all previous
entries unchanged. -/
theorem capture_appends_exactly_one (st : CamState)
    (outcome : Option (List Nat)) :
    (capture st outcome).captures =
      st.captures ++
        [match outcome with
          | some d => CaptureEntry.fileData d
          | none =>
              CaptureEntry.placeholder st.resolution.1 st.resolution.2] ∧
    (capture st outcome).captures.length = st.captures.length + 1 ∧
    (capture st outcome).captures.take st.captures.length = st.captures := by
  have hc : (capture st outcome).captures =
      st.captures ++
        [match outcome with
          | some d => CaptureEntry.fileData d
          | none =>
              CaptureEntry.placeholder st.resolution.1 st.resolution.2] := by
    cases outcome with
    | some d => simp [capture, stop_preview_process_eq]
    | none => simp [capture, stop_preview_process_eq]
  refine ⟨hc, ?_, ?_⟩
  · rw [hc, List.length_append]
    rfl
  · rw [hc, List.take_left]

/-- **C8**: the Latest Frame is written only by the extractor's publish
step: `stop_preview`, `quit`, `capture`, `preview`, `preview_countdown`
and `preview_wait` all leave `latest_frame_bytes` exactly as it was, and
a publish never clears it back to `None`. -/
theorem latest_frame_only_written_by_extractor (st : CamState)
    (outcome : Option (List Nat)) (flip : Bool) (smile : String)
    (est : ExtractorState) (c : List Nat) :
    (stop_preview st).latest_frame_bytes = st.latest_frame_bytes ∧
    (quit st).latest_frame_bytes = st.latest_frame_bytes ∧
    (capture st outcome).latest_frame_bytes = st.latest_frame_bytes ∧
    (preview st flip).latest_frame_bytes = st.latest_frame_bytes ∧
    (preview_countdown st smile).latest_frame_bytes =
      st.latest_frame_bytes ∧
    (preview_wait st).latest_frame_bytes = st.latest_frame_bytes ∧
    (∀ v, est.latest = some v →
      ∃ v', (processChunk est c).latest = some v') := by
  refine ⟨?_, ?_, ?_, ?_, rfl, rfl, ?_⟩
  · simp [stop_preview, stop_preview_process_eq]
  · simp [quit, stop_preview_process_eq]
  · cases outcome with
    | some d => simp [capture, stop_preview_process_eq]
    | none => simp [capture, stop_preview_process_eq]
  · simp only [preview, start_preview_process]
    split
    · rfl
    · rfl
  · intro v hv
    cases hx : (scanBuffer (est.buffer ++ c)).1.getLast? with
    | none => exact ⟨v, by simp [processChunk, hx, hv]⟩
    | some f => exact ⟨f, by simp [processChunk, hx]⟩

/-- A concrete camera state used by witnesses. -/
def sampleCam : CamState :=
  ⟨false, false, some [1, 2], none, false, false, 640, 480, (1920, 1080), []⟩

/-- **C8, witness**. -/
theorem latest_frame_only_written_by_extractor_witness :
    (stop_preview sampleCam).latest_frame_bytes = some [1, 2] ∧
    (quit sampleCam).latest_frame_bytes = some [1, 2] ∧
    (capture sampleCam none).latest_frame_bytes = some [1, 2] ∧
    (preview sampleCam true).latest_frame_bytes = some [1, 2] ∧
    (preview_countdown sampleCam "smile").latest_frame_bytes =
      some [1, 2] ∧
    (preview_wait sampleCam).latest_frame_bytes = some [1, 2] ∧
    ∃ v', (processChunk ⟨[], [], some [1, 2]⟩ []).latest = some v' := by
  have h := latest_frame_only_written_by_extractor sampleCam none true
    "smile" ⟨[], [], some [1, 2]⟩ []
  exact ⟨h.1, h.2.1, h.2.2.1, h.2.2.2.1, h.2.2.2.2.1, h.2.2.2.2.2.1,
    h.2.2.2.2.2.2 [1, 2] rfl⟩

/-- Abstract PIL image values produced by `_get_preview_image`. -/
inductive PilImage where
  /-- `Image.new('RGB', (w, h), color)` -/
  | new (w h : Nat) (color : Nat × Nat × Nat)
  /-- `Image.open(io.BytesIO(frame))`, successfully decoded -/
  | decoded (frame : List Nat)
  /-- `image.transpose(Image.FLIP_LEFT_RIGHT)` -/
  | flipped (i : PilImage)
  /-- the image after the shadowed overlay text has been drawn -/
  | withText (i : PilImage) (t : String)
deriving DecidableEq, Repr

/-- `_get_preview_image`.  `decodeOk f` abstracts whether the imaging
library successfully decodes the bytes `f` (and the subsequent
operations inside the `try` block succeed); when it is `false`, control
reaches `except Exception: pass` and falls through to the black
placeholder.  An empty byte string is falsy in Python, so
`if self.latest_frame_bytes:` also falls through to the placeholder. -/
def get_preview_image (decodeOk : List Nat → Bool) (st : CamState) :
    PilImage :=
  match st.latest_frame_bytes with
  | some f =>
      if f ≠ [] then
        if decodeOk f then
          let i := PilImage.decoded f
          let i := if st.preview_flip then PilImage.flipped i else i
          match st.overlay_text with
          | some t => PilImage.withText i t
          | none => i
        else PilImage.new st.preview_width st.preview_height (0, 0, 0)
      else PilImage.new st.preview_width st.preview_height (0, 0, 0)
  | none => PilImage.new st.preview_width st.preview_height (0, 0, 0)

/-- **C4**: for every Latest Frame value (absent, empty, undecodable
bytes) and every overlay/flip configuration, the preview render returns
normally (totality by construction, every failure being caught); and
whenever the frame is absent or decoding fails, the result is the solid
black image of exactly the preview dimensions.  Conversely anything
other than the black placeholder arises only from a nonempty frame that
decoded successfully. -/
theorem render_never_fails (decodeOk : List Nat → Bool) (st : CamState) :
    ((st.latest_frame_bytes = none ∨
        ∃ f, st.latest_frame_bytes = some f ∧ decodeOk f = false) →
      get_preview_image decodeOk st =
        PilImage.new st.preview_width st.preview_height (0, 0, 0)) ∧
    (get_preview_image decodeOk st =
        PilImage.new st.preview_width st.preview_height (0, 0, 0) ∨
      ∃ f, st.latest_frame_bytes = some f ∧ f ≠ [] ∧ decodeOk f = true) := by
  cases hl : st.latest_frame_bytes with
  | none => exact ⟨fun _ => by simp [get_preview_image, hl], Or.inl (by
      simp [get_preview_image, hl])⟩
  | some f =>
    by_cases hf : f = []
    · subst hf
      refine ⟨fun _ => by simp [get_preview_image, hl], Or.inl (by
        simp [get_preview_image, hl])⟩
    · cases hd : decodeOk f with
      | false =>
        refine ⟨fun _ => ?_, Or.inl ?_⟩
        · simp [get_preview_image, hl, hf, hd]
        · simp [get_preview_image, hl, hf, hd]
      | true =>
        refine ⟨fun h => ?_, Or.inr ⟨f, rfl, hf, hd⟩⟩
        rcases h with h | ⟨f', hf', hd'⟩
        · cases h
        · injection hf' with hff
          subst hff
          rw [hd] at hd'
          cases hd'

/-- **C4, witness**: an undecodable two-byte frame renders as the black
placeholder of the preview dimensions. -/
theorem render_never_fails_witness :
    get_preview_image (fun _ => false) sampleCam =
      PilImage.new 640 480 (0, 0, 0) :=
  (render_never_fails (fun _ => false) sampleCam).1
    (Or.inr ⟨[1, 2], rfl, rfl⟩)

/-- `TARGET_PREVIEW_WIDTH = 720`, the fixed preview width constant. -/
def TARGET_PREVIEW_WIDTH : Nat := 720

/-- `_specific_initialization`: computes the preview dimensions from the
configured resolution.  The source computes `ratio = rw / rh` and then
`int(TARGET_PREVIEW_WIDTH / ratio)`; the real arithmetic is modelled
exactly (rationals), with `int()` on a nonnegative value being
`Nat.floor`, and the result is bumped by one if odd. -/
def specific_initialization (rw rh : Nat) : Nat × Nat :=
  let ratio : ℚ := (rw : ℚ) / (rh : ℚ)
  let h0 : Nat := Nat.floor ((TARGET_PREVIEW_WIDTH : ℚ) / ratio)
  let h1 : Nat := if h0 % 2 ≠ 0 then h0 + 1 else h0
  (TARGET_PREVIEW_WIDTH, h1)

/-- The Preview Dimensions computation as the specification's claim
words it (`round` of the exact quotient, then adjusted to be even),
stated only for comparison with `specific_initialization`. -/
def claimedPreviewDims (rw rh : Nat) : Nat × Nat :=
  let h0 : Nat :=
    (round ((TARGET_PREVIEW_WIDTH : ℚ) / ((rw : ℚ) / (rh : ℚ)))).toNat
  let h1 : Nat := if h0 % 2 ≠ 0 then h0 + 1 else h0
  (TARGET_PREVIEW_WIDTH, h1)

theorem floor_ratio_eq (rw rh : Nat) :
    Nat.floor (((720 : ℕ) : ℚ) / ((rw : ℚ) / (rh : ℚ))) = 720 * rh / rw := by
  rw [div_div_eq_mul_div]
  rw [show ((720 : ℕ) : ℚ) * (rh : ℚ) = ((720 * rh : ℕ) : ℚ) by push_cast; ring]
  exact Nat.floor_div_eq_div (720 * rh) rw

theorem specific_initialization_eq (rw rh : Nat) :
    specific_initialization rw rh =
      (720, if (720 * rh / rw) % 2 ≠ 0 then 720 * rh / rw + 1
            else 720 * rh / rw) := by
  simp only [specific_initialization, TARGET_PREVIEW_WIDTH, floor_ratio_eq]

/-- **C6** (amended: the height is the `int()` truncation — the floor —
of `720 / (rw / rh)`, not its rounding to nearest): initialization sets
the preview width to the fixed target constant 720 and the preview
height to `⌊720 * rh / rw⌋` adjusted to be even by adding one if odd;
in particular resolution (1920, 1080) yields exactly (720, 406). -/
theorem preview_dims_computed (rw rh : Nat) (_hw : 0 < rw) (_hh : 0 < rh) :
    (specific_initialization rw rh).1 = TARGET_PREVIEW_WIDTH ∧
    (specific_initialization rw rh).2 =
      (if (720 * rh / rw) % 2 ≠ 0 then 720 * rh / rw + 1
        else 720 * rh / rw) ∧
    (specific_initialization rw rh).2 % 2 = 0 ∧
    specific_initialization 1920 1080 = (720, 406) := by
  refine ⟨?_, ?_, ?_, ?_⟩
  · rw [specific_initialization_eq]
    rfl
  · rw [specific_initialization_eq]
  · rw [specific_initialization_eq]
    show (if (720 * rh / rw) % 2 ≠ 0 then 720 * rh / rw + 1
      else 720 * rh / rw) % 2 = 0
    split
    · rename_i h
      omega
    · rename_i h
      omega
  · rw [specific_initialization_eq]
    decide

/-- **C6, witness**. -/
theorem preview_dims_computed_witness :
    0 < 1920 ∧ 0 < 1080 ∧ specific_initialization 1920 1080 = (720, 406) :=
  ⟨by decide, by decide,
    (preview_dims_computed 1920 1080 (by decide) (by decide)).2.2.2⟩

/-- **C6, counterexample to the claim's rounding formula**: at
resolution (1000, 993) the exact quotient is 714.96; the code truncates
(`int`) to 714, which is even and kept, while the claim's
round-to-nearest gives 715, odd, adjusted to 716. -/
theorem preview_dims_round_counterexample :
    specific_initialization 1000 993 = (720, 714) ∧
    claimedPreviewDims 1000 993 = (720, 716) ∧
    specific_initialization 1000 993 ≠ claimedPreviewDims 1000 993 := by
  have h1 : specific_initialization 1000 993 = (720, 714) := by
    rw [specific_initialization_eq]
    decide
  have h2 : claimedPreviewDims 1000 993 = (720, 716) := by
    simp only [claimedPreviewDims, TARGET_PREVIEW_WIDTH]
    have hq : ((720 : ℕ) : ℚ) / (((1000 : ℕ) : ℚ) / ((993 : ℕ) : ℚ)) =
        (17874 : ℚ) / 25 := by
      norm_num
    rw [hq]
    have hr : round ((17874 : ℚ) / 25) = 715 := by
      rw [round_eq, Int.floor_eq_iff]
      constructor
      · norm_num
      · norm_num
    rw [hr]
    decide
  refine ⟨h1, h2, ?_⟩
  rw [h1, h2]
  simp

end Pibooth
